import Mathlib

/-!
Verification development for the `lingest` core (`src/lib.rs`): a shallow
embedding of the traversal / filter / extraction engine, together with
theorems settling the specification's claims.

Modelling conventions:
* A filesystem snapshot is an inductive tree `FSEntry`.  A file carries its
  `read_to_string` outcome (`some content` on success, `none` on a read
  failure such as invalid UTF-8); a directory carries its `read_dir` outcome
  (`none` when the listing fails); `other` stands for an entry whose file
  type is neither a regular file nor a directory (symlink, socket, …) or
  whose file type cannot be determined.
* Paths are lists of component names, relative to the root.  The
  output-artifact path is `some comps` when it lies inside the root and
  `none` when it lies outside (in which case it compares unequal to every
  entry path, exactly as the full-path comparison in the source does).
* Machine integers: `processed_count` is a Rust `u32` obtained by an
  `as u32` cast from `usize`, embedded as `Nat` reduction modulo `2 ^ 32`.
-/

namespace Lingest

/-! ## Glob patterns

The Rust source delegates pattern compilation and matching to the external
`glob` crate (`glob::Pattern::new` / `Pattern::matches`), whose code is not
part of this repository. -/

/-- Glob pattern token.  Modelled from the spec: the external glob
pattern grammar is not in `src/`; the spec describes shell-style glob
semantics (`*` = any run of characters, `?` = single character, `[...]` =
character class, recursive-segment wildcards consistent with common glob
conventions). -/
inductive GlobToken where
  | lit (c : Char)
  | anyChar
  | anySeq
  | cclass (neg : Bool) (ranges : List (Char × Char))
deriving DecidableEq, Repr

/-- Modelled from the spec: split a `[...]` character class (after the
opening bracket) into its body and the remainder of the pattern after the
closing bracket; `none` when the class is unterminated (malformed
pattern). -/
def classSpan (cs : List Char) : Option (List Char × List Char) :=
  match cs.dropWhile (· ≠ ']') with
  | ']' :: r => some (cs.takeWhile (· ≠ ']'), r)
  | _ => none

/-- Modelled from the spec: interpret a character-class body as a list of
closed ranges — `a-b` is a range, any other character stands for itself. -/
def classRanges : List Char → List (Char × Char)
  | a :: '-' :: b :: rest => (a, b) :: classRanges rest
  | a :: rest => (a, a) :: classRanges rest
  | [] => []

/-- A successfully split character class consumes at least the closing
bracket. -/
theorem classSpan_length {cs body r : List Char}
    (h : classSpan cs = some (body, r)) : r.length < cs.length := by
  unfold classSpan at h
  split at h
  · rename_i r' heq
    simp only [Option.some.injEq, Prod.mk.injEq] at h
    obtain ⟨hb, hr⟩ := h
    subst hr
    have hle : (cs.dropWhile (· ≠ ']')).length ≤ cs.length :=
      (cs.dropWhile_sublist (· ≠ ']')).length_le
    rw [heq] at hle
    simp at hle
    omega
  · exact absurd h (by simp)

/-- Modelled from the spec: compile a glob pattern character list into
tokens; `none` on malformed syntax (an unterminated character class).
Runs of `*` (including the recursive `**`) all match any run of
characters, matching the external matcher's default options, under which
`*` is not required to stop at path separators. -/
def compileChars : List Char → Option (List GlobToken)
  | [] => some []
  | '?' :: rest => (compileChars rest).map (GlobToken.anyChar :: ·)
  | '*' :: rest => (compileChars rest).map (GlobToken.anySeq :: ·)
  | '[' :: '!' :: rest' =>
    match h : classSpan rest' with
    | some (body, r) => (compileChars r).map (GlobToken.cclass true (classRanges body) :: ·)
    | none => none
  | '[' :: rest =>
    match h : classSpan rest with
    | some (body, r) => (compileChars r).map (GlobToken.cclass false (classRanges body) :: ·)
    | none => none
  | c :: rest => (compileChars rest).map (GlobToken.lit c :: ·)
termination_by cs => cs.length
decreasing_by
  all_goals simp_all
  all_goals first
    | omega
    | (have hsl : _ < _ := classSpan_length h; omega)

/-- Modelled from the spec: `glob::Pattern::new` — compile a pattern
string, `none` on malformed syntax. -/
def globCompile (pat : String) : Option (List GlobToken) :=
  compileChars pat.data

/-- Membership of a character in a character class's ranges. -/
def inClass (ranges : List (Char × Char)) (c : Char) : Bool :=
  ranges.any fun r => decide (r.1 ≤ c) && decide (c ≤ r.2)

/-- Modelled from the spec: `glob::Pattern::matches` — match a compiled
token list against the characters of a path. -/
def globMatch : List GlobToken → List Char → Bool
  | [], cs => cs.isEmpty
  | GlobToken.anySeq :: ts, cs =>
    globMatch ts cs ||
      (match cs with
       | [] => false
       | _ :: cs' => globMatch (GlobToken.anySeq :: ts) cs')
  | GlobToken.lit _ :: _, [] => false
  | GlobToken.lit c :: ts, c' :: cs => c == c' && globMatch ts cs
  | GlobToken.anyChar :: _, [] => false
  | GlobToken.anyChar :: ts, _ :: cs => globMatch ts cs
  | GlobToken.cclass _ _ :: _, [] => false
  | GlobToken.cclass neg rs :: ts, c :: cs => (inClass rs c != neg) && globMatch ts cs
termination_by ts cs => (cs.length, ts.length)

/-- A single pattern's end-to-end behaviour at a call site of the source:
compile, then match; a pattern that fails to compile matches nothing. -/
def globMatchTotal (pattern path : String) : Bool :=
  match globCompile pattern with
  | some p => globMatch p path.data
  | none => false

/-- `should_ignore` from `src/lib.rs`: true iff any pattern in the list
compiles and matches the path; compile failures count as no match. -/
def should_ignore (path : String) (patterns : List String) : Bool :=
  patterns.any fun pattern =>
    match globCompile pattern with
    | some p => globMatch p path.data
    | none => false

/-- `matches_any` from `src/lib.rs`: identical body to `should_ignore`. -/
def matches_any (path : String) (patterns : List String) : Bool :=
  patterns.any fun pattern =>
    match globCompile pattern with
    | some p => globMatch p path.data
    | none => false

/-! ## Filesystem snapshot -/

/-- A filesystem entry.  `file` carries the outcome of
`fs::read_to_string` (`none` = read failure, e.g. invalid UTF-8 or an OS
error); `dir` carries the outcome of `fs::read_dir` (`none` = listing
fails); `other` is an entry whose file type is neither a regular file nor
a directory, or whose file type cannot be determined. -/
inductive FSEntry where
  | file (name : String) (read : Option String)
  | dir (name : String) (listing : Option (List FSEntry))
  | other (name : String)
deriving Repr

/-- The entry's file name. -/
def FSEntry.name : FSEntry → String
  | .file n _ => n
  | .dir n _ => n
  | .other n => n

/-- `entry.file_type().map(|t| t.is_dir()).unwrap_or(false)`. -/
def FSEntry.isDirB : FSEntry → Bool
  | .dir _ _ => true
  | _ => false

/-- `entry.file_type().map(|t| t.is_file()).unwrap_or(false)`. -/
def FSEntry.isFileB : FSEntry → Bool
  | .file _ _ => true
  | _ => false

/-! ## Relative path strings -/

/-- Join root-relative path components with `/`, as the display of the
relative path produced by `strip_prefix` does on Unix. -/
def joinComps : List String → String
  | [] => ""
  | [c] => c
  | c :: rest => c ++ "/" ++ joinComps rest

/-- `.replace('\\', "/")` from the source: the pattern is a single
character, so the replacement substitutes `/` for every backslash. -/
def normalizeSep (s : String) : String :=
  ⟨s.data.map fun c => if c = '\\' then '/' else c⟩

/-- `relative_path.to_string_lossy().replace('\\', "/")`: the
slash-normalized root-relative path string of an entry. -/
def relString (comps : List String) : String :=
  normalizeSep (joinComps comps)

/-! ## Tree rendering (`generate_tree` from `src/lib.rs`) -/

/-- Byte/code-point lexicographic comparison of two character lists, as
`OsStr::cmp` compares file names. -/
def charListCmp : List Char → List Char → Ordering
  | [], [] => .eq
  | [], _ :: _ => .lt
  | _ :: _, [] => .gt
  | a :: as, b :: bs =>
    if a.toNat < b.toNat then .lt
    else if b.toNat < a.toNat then .gt
    else charListCmp as bs

/-- `a.file_name().cmp(&b.file_name())`. -/
def nameCmp (a b : String) : Ordering :=
  charListCmp a.data b.data

/-- The sort comparator of `generate_tree`: directories first, then the
raw file-name comparison. -/
def entryCmp (a b : FSEntry) : Ordering :=
  match a.isDirB, b.isDirB with
  | true, false => .lt
  | false, true => .gt
  | _, _ => nameCmp a.name b.name

/-- The `le` relation induced by `entryCmp`, used for the stable sort
(`a` may precede `b` iff the comparator does not order `a` after `b`). -/
def treeLe (a b : FSEntry) : Bool :=
  entryCmp a b != .gt

/-- The listing actually iterated by `generate_tree`: the raw listing
with the output-artifact path filtered out, then stably sorted with
directories first and by raw name within each group.  `rel` is the
root-relative path of the directory being listed, `outRel` the
root-relative output-artifact path (`none` when outside the root). -/
def sortEntries (es : List FSEntry) (rel : List String)
    (outRel : Option (List String)) : List FSEntry :=
  (es.filter fun e => !(some (rel ++ [e.name]) == outRel)).mergeSort treeLe

/-- `sizeOf` of a filtered list never exceeds `sizeOf` of the list. -/
theorem sizeOf_filter_le (p : FSEntry → Bool) (l : List FSEntry) :
    sizeOf (l.filter p) ≤ sizeOf l := by
  induction l with
  | nil => simp
  | cons a t ih =>
    by_cases h : p a
    · simp [List.filter_cons, h]
      omega
    · simp only [List.filter_cons, h, Bool.false_eq_true, if_false]
      simp
      omega

/-- `sizeOf` bound for the sorted, output-filtered listing. -/
theorem sizeOf_sortEntries_le (es : List FSEntry) (rel : List String)
    (outRel : Option (List String)) :
    sizeOf (sortEntries es rel outRel) ≤ sizeOf es := by
  unfold sortEntries
  rw [List.Perm.sizeOf_eq_sizeOf (List.mergeSort_perm _ treeLe)]
  exact sizeOf_filter_le _ es

mutual

/-- `generate_tree` from `src/lib.rs`.  The first argument is the
`read_dir` outcome of the directory being rendered (`none` = listing
failure, rendered as an empty subtree), `rel` its root-relative path
(`[]` at the root). -/
def generate_tree (listing : Option (List FSEntry)) (rel : List String)
    (pre : String) (ignore_globs include_globs : List String)
    (outRel : Option (List String)) : String :=
  match listing with
  | none => ""
  | some es => renderList (sortEntries es rel outRel) rel pre
      ignore_globs include_globs outRel
termination_by sizeOf listing
decreasing_by
  have := sizeOf_sortEntries_le es rel outRel
  simp
  omega

/-- The entry loop of `generate_tree`: renders the sorted listing one
entry at a time; an entry is the last of the pre-filter listing exactly
when the remaining tail is empty. -/
def renderList (entries : List FSEntry) (rel : List String) (pre : String)
    (ignore_globs include_globs : List String)
    (outRel : Option (List String)) : String :=
  match entries with
  | [] => ""
  | e :: rest =>
    (if should_ignore (relString (rel ++ [e.name])) ignore_globs then ""
     else
       let is_last := rest.isEmpty
       let connector := if is_last then "└── " else "├── "
       match e with
       | .dir name l =>
         pre ++ connector ++ name ++ "/\n" ++
           generate_tree l (rel ++ [name])
             (pre ++ (if is_last then "    " else "│   "))
             ignore_globs include_globs outRel
       | .file name _ =>
         if !include_globs.isEmpty &&
             !matches_any (relString (rel ++ [e.name])) include_globs then ""
         else pre ++ connector ++ name ++ "\n"
       | .other _ => "") ++
    renderList rest rel pre ignore_globs include_globs outRel
termination_by sizeOf entries
decreasing_by
  all_goals simp
  all_goals omega

end

/-! ## Content collection (`process_files` from `src/lib.rs`) -/

/-- A `FileContent` record of the result. -/
structure FileContent where
  path : String
  content : String
  error : Option String
deriving DecidableEq, Repr

/-- The recursive walk of `WalkDir` restricted to the entries that
survive `.filter(|e| e.file_type().is_file())`: the root-relative
component paths of all regular files reachable from `rel`, each paired
with its `read_to_string` outcome.  Symbolic links are never followed
(`other` entries contribute nothing) and an unreadable directory
contributes an empty subtree (its error entries are dropped by
`.filter_map(|e| e.ok())`). -/
def walkEntry (rel : List String) : FSEntry → List (List String × Option String)
  | .file name r => [(rel ++ [name], r)]
  | .other _ => []
  | .dir name l =>
    (l.getD []).attach.flatMap fun e => walkEntry (rel ++ [name]) e.1
termination_by e => sizeOf e
decreasing_by
  have h1 : sizeOf e.1 < sizeOf (l.getD []) := List.sizeOf_lt_of_mem e.2
  cases l with
  | none => simp at h1 ⊢; omega
  | some es => simp at h1 ⊢; omega

/-- All regular files reachable from the root (`WalkDir::new(base_path)`;
the root directory entry itself is not a file and is dropped by the
file-type filter).  `root` is the root directory's listing, `none` when
the root cannot be opened at all (the walker then yields only an error
entry, which is dropped). -/
def walkRoot (root : Option (List FSEntry)) : List (List String × Option String) :=
  (root.getD []).flatMap (fun e => walkEntry [] e)

/-- The walked file entries after `.filter(|e| e.path() != output_path)`. -/
def filteredEntries (root : Option (List FSEntry))
    (outRel : Option (List String)) : List (List String × Option String) :=
  (walkRoot root).filter fun pr => !(some pr.1 == outRel)

/-- The per-file closure of the `par_iter().filter_map(...)` in
`process_files`: `none` when the file is dropped by the ignore or include
filters, otherwise the produced record. -/
def processEntry (pr : List String × Option String)
    (ignore_globs include_globs : List String) (dry_run : Bool) :
    Option FileContent :=
  let relative_str := relString pr.1
  if should_ignore relative_str ignore_globs then none
  else if !include_globs.isEmpty && !matches_any relative_str include_globs then none
  else if dry_run then
    some ⟨relative_str, "[Dry Run] Content of " ++ relative_str ++ " would be here.", none⟩
  else
    match pr.2 with
    | some content => some ⟨relative_str, content, none⟩
    | none =>
      some ⟨relative_str, "",
        some "Could not be read as UTF-8 text. Might be binary or encoding issue."⟩

/-- The record collection produced from a list of walked file entries.
Rayon's parallel fan-out delivers the records of exactly these entries
into the collector. -/
def collectRecords (entries : List (List String × Option String))
    (ignore_globs include_globs : List String) (dry_run : Bool) :
    List FileContent :=
  entries.filterMap fun pr => processEntry pr ignore_globs include_globs dry_run

/-- `process_files` from `src/lib.rs`.  The count is the Rust
`file_contents.len() as u32`, i.e. the length truncated to 32 bits.  The
body ends in `Ok((file_contents, processed_count))` on every path. -/
def process_files (root : Option (List FSEntry))
    (ignore_globs include_globs : List String)
    (outRel : Option (List String)) (dry_run : Bool) :
    Except String (List FileContent × Nat) :=
  let file_contents :=
    collectRecords (filteredEntries root outRel) ignore_globs include_globs dry_run
  .ok (file_contents, file_contents.length % 2 ^ 32)

/-! ## Orchestration (`process_directory` from `src/lib.rs`) -/

/-- `LingestOptions`: the request.  `root` is the filesystem snapshot at
`cwd` (`none` when the root path does not exist or cannot be opened);
`outRel` is the output-artifact path as root-relative components when it
lies inside the root, `none` when outside. -/
structure LingestOptions where
  root : Option (List FSEntry)
  outRel : Option (List String)
  ignore_globs : List String
  include_globs : List String
  no_tree : Bool
  dry_run : Bool

/-- `LingestResult`: the response. -/
structure LingestResult where
  tree : Option String
  file_contents : List FileContent
  processed_count : Nat
deriving DecidableEq, Repr

/-- `process_directory` from `src/lib.rs`. -/
def process_directory (options : LingestOptions) : Except String LingestResult :=
  let tree :=
    if !options.no_tree then
      some (generate_tree options.root [] "" options.ignore_globs
        options.include_globs options.outRel)
    else none
  match process_files options.root options.ignore_globs options.include_globs
      options.outRel options.dry_run with
  | .error e => .error e
  | .ok (file_contents, processed_count) =>
    .ok ⟨tree, file_contents, processed_count⟩

/-! ## Spec-side definitions -/

/-- `shouldInclude` as the spec defines it:
`includePatterns.isEmpty() OR matches(path, includePatterns)`. -/
def shouldInclude (path : String) (includePatterns : List String) : Bool :=
  includePatterns.isEmpty || matches_any path includePatterns

/-! ## Claims -/

/-- C1 (counterexample): a request whose root path cannot be opened at
all (the root listing is unavailable) does not fail the overall call:
`process_directory` returns a complete `Ok` result with an empty tree and
no records, contradicting the claim that root-access failure fails the
call outright. -/
theorem unreadable_root_returns_ok :
    process_directory ⟨none, none, [], [], false, false⟩ =
      .ok ⟨some "", [], 0⟩ := by
  simp [process_directory, process_files, generate_tree, collectRecords,
    filteredEntries, walkRoot]

/-- C1 (amended): `process_directory` never fails: for every request,
including one whose root path does not exist or cannot be opened, it
returns a complete result (an inaccessible root degrades to an empty tree
and an empty record collection), so the caller never observes a partial,
aborted or failed call. -/
theorem process_directory_never_fails (options : LingestOptions) :
    ∃ result, process_directory options = .ok result :=
  ⟨_, rfl⟩

/-- C4: `should_ignore(P, G)` is true iff at least one pattern of `G`
matches `P` under the glob semantics in which a pattern that fails to
compile matches nothing; consequently the patterns that fail to compile
can be deleted from `G` without changing any answer, and a list holding
only a malformed pattern ignores nothing. -/
theorem should_ignore_iff_any_glob (P : String) (G : List String) :
    (should_ignore P G = true ↔ ∃ pat ∈ G, globMatchTotal pat P = true) ∧
    should_ignore P G =
      should_ignore P (G.filter fun pat => (globCompile pat).isSome) ∧
    (∀ pat, globCompile pat = none → should_ignore P [pat] = false) := by
  refine ⟨?_, ?_, ?_⟩
  · simp only [should_ignore, List.any_eq_true, globMatchTotal]
  · induction G with
    | nil => rfl
    | cons a t ih =>
      cases h : globCompile a with
      | none => simp [should_ignore, List.filter_cons, h] at ih ⊢; exact ih
      | some p => simp [should_ignore, List.filter_cons, h] at ih ⊢; rw [ih]
  · intro pat h
    simp [should_ignore, h]

/-- C4 (witness): the malformed pattern `[` fails to compile and ignores
nothing. -/
theorem should_ignore_iff_any_glob_witness :
    should_ignore "x" ["["] = false :=
  (should_ignore_iff_any_glob "x" ["["]).2.2 "["
    (by simp [globCompile, compileChars, classSpan])

/-- C6: the include gate used by both the tree renderer and the content
collector is exactly the negation of the spec's
`shouldInclude(path, includePatterns) = includePatterns.isEmpty() OR
matches(path, includePatterns)`; with an empty include list every file is
eligible: `shouldInclude(P, [])` holds for every `P`, the content
collector produces a record for every non-ignored file, and the tree
renderer emits every non-ignored file entry. -/
theorem shouldInclude_semantics (P : String) (inc : List String) :
    (!inc.isEmpty && !matches_any P inc) = !shouldInclude P inc ∧
    shouldInclude P [] = true ∧
    (∀ pr : List String × Option String, ∀ ign : List String, ∀ dry : Bool,
      should_ignore (relString pr.1) ign = false →
      (processEntry pr ign [] dry).isSome = true) ∧
    (∀ name : String, ∀ r : Option String, ∀ rest : List FSEntry,
      ∀ rel : List String, ∀ pre : String, ∀ ign : List String,
      ∀ out : Option (List String),
      should_ignore (relString (rel ++ [name])) ign = false →
      renderList (FSEntry.file name r :: rest) rel pre ign [] out =
        pre ++ (if rest.isEmpty then "└── " else "├── ") ++ name ++ "\n" ++
          renderList rest rel pre ign [] out) := by
  refine ⟨?_, ?_, ?_, ?_⟩
  · cases inc <;> simp [shouldInclude]
  · rfl
  · intro pr ign dry h
    cases hr : pr.2 <;> cases dry <;> simp [processEntry, h, hr]
  · intro name r rest rel pre ign out h
    simp [renderList, FSEntry.name, h]

/-- C6 (witness): at a concrete non-ignored file, the include-empty
request produces a record and renders the file line. -/
theorem shouldInclude_semantics_witness :
    should_ignore (relString ["a.txt"]) [] = false ∧
    (processEntry (["a.txt"], some "hi") [] [] false).isSome = true ∧
    renderList [FSEntry.file "a.txt" (some "hi")] [] "" [] [] none =
      "└── a.txt\n" := by
  refine ⟨by decide, ?_, ?_⟩
  · exact (shouldInclude_semantics "a.txt" []).2.2.1 (["a.txt"], some "hi") [] false (by decide)
  · have := (shouldInclude_semantics "a.txt" []).2.2.2 "a.txt" (some "hi") [] [] "" [] none (by decide)
    simpa [renderList] using this

/-- C8: with the dry-run flag set, every record of the result carries as
content exactly the synthesized placeholder derived from its own
normalized relative path and no error annotation; no file bytes are read:
the collection is unchanged when every file's read outcome is discarded,
and the result of `process_files` is exactly this collection. -/
theorem dry_run_placeholder_no_read (root : Option (List FSEntry))
    (ign inc : List String) (outRel : Option (List String)) :
    (∀ fc ∈ collectRecords (filteredEntries root outRel) ign inc true,
      fc.content = "[Dry Run] Content of " ++ fc.path ++ " would be here." ∧
      fc.error = none) ∧
    (∀ entries : List (List String × Option String),
      collectRecords entries ign inc true =
        collectRecords (entries.map fun pr => (pr.1, (none : Option String)))
          ign inc true) ∧
    process_files root ign inc outRel true =
      .ok (collectRecords (filteredEntries root outRel) ign inc true,
        (collectRecords (filteredEntries root outRel) ign inc true).length % 2 ^ 32) := by
  refine ⟨?_, ?_, rfl⟩
  · intro fc hfc
    rw [collectRecords, List.mem_filterMap] at hfc
    obtain ⟨pr, _, heq⟩ := hfc
    simp only [processEntry] at heq
    split_ifs at heq with h1 h2
    injection heq with heq
    subst heq
    exact ⟨rfl, rfl⟩
  · intro entries
    rw [collectRecords, collectRecords, List.filterMap_map]
    rfl

/-- C8 (witness): a concrete dry-run record carries the placeholder and
no error. -/
theorem dry_run_placeholder_no_read_witness :
    FileContent.mk "a" "[Dry Run] Content of a would be here." none ∈
      collectRecords
        (filteredEntries (some [FSEntry.file "a" (some "bytes")]) none)
        [] [] true ∧
    (FileContent.mk "a" "[Dry Run] Content of a would be here." none).content =
      "[Dry Run] Content of " ++
        (FileContent.mk "a" "[Dry Run] Content of a would be here." none).path ++
        " would be here." ∧
    (FileContent.mk "a" "[Dry Run] Content of a would be here." none).error = none := by
  have hmem : FileContent.mk "a" "[Dry Run] Content of a would be here." none ∈
      collectRecords
        (filteredEntries (some [FSEntry.file "a" (some "bytes")]) none)
        [] [] true := by
    simp [collectRecords, filteredEntries, walkRoot, walkEntry, processEntry,
      should_ignore, relString, joinComps, normalizeSep]
  exact ⟨hmem,
    (dry_run_placeholder_no_read (some [FSEntry.file "a" (some "bytes")]) [] [] none).1
      _ hmem⟩

/-- C9: the set of records is independent of the order in which the
parallel workers process and deliver the surviving file entries: any two
orderings of the walked-and-filtered entry list produce permutations of
one another, and each is a permutation of the record list `process_files`
returns for the (unchanged) snapshot. -/
theorem collection_order_irrelevant (root : Option (List FSEntry))
    (ign inc : List String) (outRel : Option (List String)) (dry : Bool)
    (es₁ es₂ : List (List String × Option String))
    (h₁ : es₁.Perm (filteredEntries root outRel))
    (h₂ : es₂.Perm (filteredEntries root outRel)) :
    (collectRecords es₁ ign inc dry).Perm (collectRecords es₂ ign inc dry) ∧
    (∀ records count,
      process_files root ign inc outRel dry = .ok (records, count) →
      (collectRecords es₁ ign inc dry).Perm records) := by
  constructor
  · exact (h₁.filterMap _).trans (h₂.filterMap _).symm
  · intro records count h
    simp only [process_files, Except.ok.injEq, Prod.mk.injEq] at h
    obtain ⟨hr, -⟩ := h
    rw [← hr]
    exact h₁.filterMap _

/-- C9 (witness): two delivery orders of a concrete two-file snapshot
yield permuted (identical as sets) record collections. -/
theorem collection_order_irrelevant_witness :
    ([(["b"], some "B"), (["a"], some "A")] :
        List (List String × Option String)).Perm
      (filteredEntries
        (some [FSEntry.file "a" (some "A"), FSEntry.file "b" (some "B")]) none) ∧
    ([(["a"], some "A"), (["b"], some "B")] :
        List (List String × Option String)).Perm
      (filteredEntries
        (some [FSEntry.file "a" (some "A"), FSEntry.file "b" (some "B")]) none) ∧
    (collectRecords [(["b"], some "B"), (["a"], some "A")] [] [] false).Perm
      (collectRecords [(["a"], some "A"), (["b"], some "B")] [] [] false) := by
  have hfe : filteredEntries
      (some [FSEntry.file "a" (some "A"), FSEntry.file "b" (some "B")]) none =
      [(["a"], some "A"), (["b"], some "B")] := by
    simp [filteredEntries, walkRoot, walkEntry]
  have h₁ : ([(["b"], some "B"), (["a"], some "A")] :
      List (List String × Option String)).Perm
      (filteredEntries
        (some [FSEntry.file "a" (some "A"), FSEntry.file "b" (some "B")]) none) := by
    rw [hfe]; decide
  have h₂ : ([(["a"], some "A"), (["b"], some "B")] :
      List (List String × Option String)).Perm
      (filteredEntries
        (some [FSEntry.file "a" (some "A"), FSEntry.file "b" (some "B")]) none) := by
    rw [hfe]
  exact ⟨h₁, h₂,
    (collection_order_irrelevant _ [] [] none false _ _ h₁ h₂).1⟩

/-- C10: an entry whose file type is neither a directory nor a regular
file produces no output line at all (whether or not it is ignored), yet
it still occupies a position in the pre-filter sorted listing: when such
an entry is last, the preceding visible file is not last and receives the
branch connector, so no visible entry of that directory receives the
corner connector. -/
theorem other_entries_silent_but_counted :
    (∀ name : String, ∀ rest : List FSEntry, ∀ rel : List String,
      ∀ pre : String, ∀ ign inc : List String, ∀ out : Option (List String),
      renderList (FSEntry.other name :: rest) rel pre ign inc out =
        renderList rest rel pre ign inc out) ∧
    (∀ fname : String, ∀ r : Option String, ∀ oname : String,
      ∀ rel : List String, ∀ pre : String, ∀ ign inc : List String,
      ∀ out : Option (List String),
      should_ignore (relString (rel ++ [fname])) ign = false →
      (!inc.isEmpty && !matches_any (relString (rel ++ [fname])) inc) = false →
      renderList [FSEntry.file fname r, FSEntry.other oname] rel pre ign inc out =
        pre ++ "├── " ++ fname ++ "\n") := by
  constructor
  · intro name rest rel pre ign inc out
    simp [renderList, FSEntry.name]
  · intro fname r oname rel pre ign inc out h1 h2
    simp [renderList, FSEntry.name, h1, h2]

/-- The file-name comparison never orders both `as ≤ bs` and `bs ≤ as`
falsely: the induced `le` is total. -/
theorem charListCmp_not_gt_total :
    ∀ as bs : List Char, charListCmp as bs ≠ .gt ∨ charListCmp bs as ≠ .gt := by
  intro as
  induction as with
  | nil =>
    intro bs
    cases bs <;> simp [charListCmp]
  | cons a as ih =>
    intro bs
    cases bs with
    | nil => simp [charListCmp]
    | cons b bs =>
      simp only [charListCmp]
      split_ifs <;> first | (exact ih bs) | omega | simp

/-- The file-name comparison's induced `le` is transitive. -/
theorem charListCmp_le_trans :
    ∀ as bs cs : List Char, charListCmp as bs ≠ .gt → charListCmp bs cs ≠ .gt →
      charListCmp as cs ≠ .gt := by
  intro as
  induction as with
  | nil =>
    intro bs cs _ _
    cases cs <;> simp [charListCmp]
  | cons a as ih =>
    intro bs cs h1 h2
    cases bs with
    | nil => simp [charListCmp] at h1
    | cons b bs =>
      cases cs with
      | nil => simp [charListCmp] at h2
      | cons c cs =>
        simp only [charListCmp] at h1 h2 ⊢
        split_ifs at h1 h2 ⊢ <;>
          first
            | omega
            | (exact ih bs cs h1 h2)
            | simp_all

/-- `treeLe a b` holds exactly when the comparator does not order `a`
after `b`. -/
theorem treeLe_eq_true_iff (a b : FSEntry) :
    treeLe a b = true ↔ entryCmp a b ≠ .gt := by
  cases h : entryCmp a b <;> simp [treeLe, h] <;> rfl

/-- `treeLe` (the stable-sort relation of `generate_tree`) is
transitive. -/
theorem treeLe_trans (a b c : FSEntry) (h1 : treeLe a b = true)
    (h2 : treeLe b c = true) : treeLe a c = true := by
  rw [treeLe_eq_true_iff] at h1 h2 ⊢
  unfold entryCmp at h1 h2 ⊢
  cases da : a.isDirB <;> cases db : b.isDirB <;> cases dc : c.isDirB <;>
    simp_all [nameCmp] <;>
    exact charListCmp_le_trans _ _ _ h1 h2

/-- `treeLe` is total. -/
theorem treeLe_total (a b : FSEntry) : (treeLe a b || treeLe b a) = true := by
  rw [Bool.or_eq_true, treeLe_eq_true_iff, treeLe_eq_true_iff]
  unfold entryCmp
  cases da : a.isDirB <;> cases db : b.isDirB <;> simp_all [nameCmp] <;>
    exact charListCmp_not_gt_total _ _

/-- `treeLe a b` means: `a` is a directory and `b` is not, or the two are
in the same group and `a`'s raw name does not come after `b`'s. -/
theorem treeLe_semantic (a b : FSEntry) (h : treeLe a b = true) :
    (a.isDirB = true ∧ b.isDirB = false) ∨
      (a.isDirB = b.isDirB ∧ nameCmp a.name b.name ≠ .gt) := by
  rw [treeLe_eq_true_iff] at h
  unfold entryCmp at h
  cases da : a.isDirB <;> cases db : b.isDirB <;> simp_all

/-- C3: the listing rendered for a directory is the raw listing minus
the output path, stably sorted with directories before files and by raw
file name within each group (the sorted listing is pairwise ordered
accordingly); each entry's connector is chosen by whether it is the last
item of that pre-filter sorted listing — an entry of the tail that is
later excluded by ignore/include filtering still forces the branch
connector on the visible entries before it. -/
theorem tree_sorted_connectors :
    (∀ es : List FSEntry, ∀ rel : List String, ∀ pre : String,
      ∀ ign inc : List String, ∀ out : Option (List String),
      generate_tree (some es) rel pre ign inc out =
        renderList (sortEntries es rel out) rel pre ign inc out) ∧
    (∀ es : List FSEntry, ∀ rel : List String, ∀ out : Option (List String),
      (sortEntries es rel out).Pairwise
        (fun a b => (a.isDirB = true ∧ b.isDirB = false) ∨
          (a.isDirB = b.isDirB ∧ nameCmp a.name b.name ≠ .gt))) ∧
    (∀ fname : String, ∀ r : Option String, ∀ rest : List FSEntry,
      ∀ rel : List String, ∀ pre : String, ∀ ign inc : List String,
      ∀ out : Option (List String),
      should_ignore (relString (rel ++ [fname])) ign = false →
      (!inc.isEmpty && !matches_any (relString (rel ++ [fname])) inc) = false →
      renderList (FSEntry.file fname r :: rest) rel pre ign inc out =
        pre ++ (if rest.isEmpty then "└── " else "├── ") ++ fname ++ "\n" ++
          renderList rest rel pre ign inc out) ∧
    (∀ name : String, ∀ l : Option (List FSEntry), ∀ rest : List FSEntry,
      ∀ rel : List String, ∀ pre : String, ∀ ign inc : List String,
      ∀ out : Option (List String),
      should_ignore (relString (rel ++ [name])) ign = false →
      renderList (FSEntry.dir name l :: rest) rel pre ign inc out =
        pre ++ (if rest.isEmpty then "└── " else "├── ") ++ name ++ "/\n" ++
          generate_tree l (rel ++ [name])
            (pre ++ (if rest.isEmpty then "    " else "│   ")) ign inc out ++
          renderList rest rel pre ign inc out) := by
  refine ⟨?_, ?_, ?_, ?_⟩
  · intro es rel pre ign inc out
    simp [generate_tree]
  · intro es rel out
    exact (List.sorted_mergeSort treeLe_trans treeLe_total _).imp
      (fun h => treeLe_semantic _ _ h)
  · intro fname r rest rel pre ign inc out h1 h2
    simp [renderList, FSEntry.name, h1, h2]
  · intro name l rest rel pre ign inc out h1
    simp [renderList, FSEntry.name, h1]

/-- C3 (witness): the spec's worked example — a root holding `a/`
(containing `x.txt`) and `b.txt`, with `b.txt` ignored: the directory
sorts first, is not last in the pre-filter listing, so it keeps the
branch connector even though `b.txt` is filtered out afterwards. -/
theorem tree_sorted_connectors_witness :
    should_ignore (relString ([] ++ ["a"])) ["b.txt"] = false ∧
    generate_tree
        (some [FSEntry.file "b.txt" (some "B"),
          FSEntry.dir "a" (some [FSEntry.file "x.txt" (some "X")])])
        [] "" ["b.txt"] [] none =
      "├── a/\n│   └── x.txt\n" := by
  have h1 : should_ignore (relString ([] ++ ["a"])) ["b.txt"] = false := by
    simp [should_ignore, relString, joinComps, normalizeSep, globCompile,
      compileChars, globMatch]
  refine ⟨h1, ?_⟩
  have hs : sortEntries
      [FSEntry.file "b.txt" (some "B"),
        FSEntry.dir "a" (some [FSEntry.file "x.txt" (some "X")])] [] none =
      [FSEntry.dir "a" (some [FSEntry.file "x.txt" (some "X")]),
        FSEntry.file "b.txt" (some "B")] := by
    simp [sortEntries, FSEntry.name, List.mergeSort, List.merge, treeLe,
      entryCmp, FSEntry.isDirB, nameCmp, charListCmp] <;> rfl
  rw [(tree_sorted_connectors).1, hs,
    (tree_sorted_connectors).2.2.2 "a" _ _ _ _ _ _ _ h1]
  simp [renderList, generate_tree, sortEntries, List.mergeSort, FSEntry.name,
    should_ignore, relString, joinComps, normalizeSep, globCompile,
    compileChars, globMatch]

/-- C7: include patterns never affect directory visibility: a directory
entry is pruned (its line suppressed and its subtree skipped) exactly
when it matches an ignore pattern, for every include list alike, while a
file that survives the ignore filter is suppressed by the include gate
without affecting anything else. -/
theorem include_never_prunes_dirs :
    (∀ name : String, ∀ l : Option (List FSEntry), ∀ rest : List FSEntry,
      ∀ rel : List String, ∀ pre : String, ∀ ign inc : List String,
      ∀ out : Option (List String),
      should_ignore (relString (rel ++ [name])) ign = true →
      renderList (FSEntry.dir name l :: rest) rel pre ign inc out =
        renderList rest rel pre ign inc out) ∧
    (∀ name : String, ∀ l : Option (List FSEntry), ∀ rest : List FSEntry,
      ∀ rel : List String, ∀ pre : String, ∀ ign inc : List String,
      ∀ out : Option (List String),
      should_ignore (relString (rel ++ [name])) ign = false →
      renderList (FSEntry.dir name l :: rest) rel pre ign inc out =
        pre ++ (if rest.isEmpty then "└── " else "├── ") ++ name ++ "/\n" ++
          generate_tree l (rel ++ [name])
            (pre ++ (if rest.isEmpty then "    " else "│   ")) ign inc out ++
          renderList rest rel pre ign inc out) ∧
    (∀ fname : String, ∀ r : Option String, ∀ rest : List FSEntry,
      ∀ rel : List String, ∀ pre : String, ∀ ign inc : List String,
      ∀ out : Option (List String),
      should_ignore (relString (rel ++ [fname])) ign = false →
      (!inc.isEmpty && !matches_any (relString (rel ++ [fname])) inc) = true →
      renderList (FSEntry.file fname r :: rest) rel pre ign inc out =
        renderList rest rel pre ign inc out) := by
  refine ⟨?_, ?_, ?_⟩
  · intro name l rest rel pre ign inc out h
    simp [renderList, FSEntry.name, h]
  · intro name l rest rel pre ign inc out h
    simp [renderList, FSEntry.name, h]
  · intro fname r rest rel pre ign inc out h1 h2
    simp [renderList, FSEntry.name, h1, h2]

/-- C7 (witness): with include list `["*.md"]`, a non-matching file is
suppressed but a directory is still rendered with its line and subtree,
and an ignored directory is pruned. -/
theorem include_never_prunes_dirs_witness :
    should_ignore (relString ([] ++ ["src"])) ["skip"] = false ∧
    should_ignore (relString ([] ++ ["skip"])) ["skip"] = true ∧
    should_ignore (relString ([] ++ ["a.txt"])) ["skip"] = false ∧
    (!(["*.md"] : List String).isEmpty &&
      !matches_any (relString ([] ++ ["a.txt"])) ["*.md"]) = true ∧
    renderList [FSEntry.dir "src" (some [])] [] "" ["skip"] ["*.md"] none =
      "" ++ "└── " ++ "src" ++ "/\n" ++
        (generate_tree (some []) ([] ++ ["src"]) ("" ++ "    ")
          ["skip"] ["*.md"] none ++
        renderList [] [] "" ["skip"] ["*.md"] none) ∧
    renderList [FSEntry.dir "skip" (some [FSEntry.file "x" none])] [] ""
        ["skip"] ["*.md"] none = renderList [] [] "" ["skip"] ["*.md"] none ∧
    renderList [FSEntry.file "a.txt" (some "t")] [] "" ["skip"] ["*.md"] none =
      renderList [] [] "" ["skip"] ["*.md"] none := by
  have e1 : should_ignore (relString ([] ++ ["src"])) ["skip"] = false := by
    simp [should_ignore, relString, joinComps, normalizeSep, globCompile,
      compileChars, globMatch]
  have e2 : should_ignore (relString ([] ++ ["skip"])) ["skip"] = true := by
    simp [should_ignore, relString, joinComps, normalizeSep, globCompile,
      compileChars, globMatch]
  have e3 : should_ignore (relString ([] ++ ["a.txt"])) ["skip"] = false := by
    simp [should_ignore, relString, joinComps, normalizeSep, globCompile,
      compileChars, globMatch]
  have e4 : (!(["*.md"] : List String).isEmpty &&
      !matches_any (relString ([] ++ ["a.txt"])) ["*.md"]) = true := by
    simp [matches_any, relString, joinComps, normalizeSep, globCompile,
      compileChars, globMatch]
  exact ⟨e1, e2, e3, e4,
    include_never_prunes_dirs.2.1 "src" (some []) [] [] "" ["skip"] ["*.md"]
      none e1,
    include_never_prunes_dirs.1 "skip" (some [FSEntry.file "x" none]) [] [] ""
      ["skip"] ["*.md"] none e2,
    include_never_prunes_dirs.2.2 "a.txt" (some "t") [] [] "" ["skip"] ["*.md"]
      none e3 e4⟩

/-- A well-formed file name: non-empty and free of the path separator
`/` and of backslashes (as names on a POSIX filesystem other than the
exotic backslash case). -/
def wfName (s : String) : Bool :=
  !s.data.isEmpty && s.data.all fun c => !(c == '/') && !(c == '\\')

/-- Well-formedness of a filesystem entry: every name in it is
well-formed. -/
def wfEntry : FSEntry → Bool
  | .file n _ => wfName n
  | .other n => wfName n
  | .dir n l => wfName n && ((l.getD []).attach.all fun e => wfEntry e.1)
termination_by e => sizeOf e
decreasing_by
  have h1 : sizeOf e.1 < sizeOf (l.getD []) := List.sizeOf_lt_of_mem e.2
  cases l with
  | none => simp at h1 ⊢; omega
  | some es => simp at h1 ⊢; omega

/-- Well-formedness of a root listing. -/
def wfRoot (root : Option (List FSEntry)) : Bool :=
  (root.getD []).all fun e => wfEntry e

/-- Character-list level join of path components with `/`. -/
def joinData : List (List Char) → List Char
  | [] => []
  | [c] => c
  | c :: rest => c ++ '/' :: joinData rest

/-- Every component path produced by the walk consists of well-formed
names. -/
theorem walkEntry_wf (rel : List String) (e : FSEntry) :
    wfEntry e = true → rel.all wfName = true →
    ∀ pr ∈ walkEntry rel e, pr.1.all wfName = true := by
  induction rel, e using walkEntry.induct with
  | case1 rel name r =>
    intro hwf hrel pr hpr
    simp only [walkEntry, List.mem_singleton] at hpr
    subst hpr
    simp only [wfEntry] at hwf
    simp only [List.all_append, List.all_cons, List.all_nil]
    simp [hrel, hwf]
  | case2 rel name =>
    intro _ _ pr hpr
    simp [walkEntry] at hpr
  | case3 rel name l ih =>
    intro hwf hrel pr hpr
    simp only [walkEntry, List.mem_flatMap, List.mem_attach, true_and] at hpr
    obtain ⟨x, hx⟩ := hpr
    simp only [wfEntry, Bool.and_eq_true, List.all_eq_true] at hwf
    refine ih x (hwf.2 x (List.mem_attach _ _)) ?_ pr hx
    simp only [List.all_append, List.all_cons, List.all_nil]
    simp [hrel, hwf.1]

/-- Splitting at the first separator: two separated concatenations with
separator-free heads agree componentwise. -/
theorem append_sep_inj :
    ∀ (a b x y : List Char), '/' ∉ a → '/' ∉ b →
      a ++ '/' :: x = b ++ '/' :: y → a = b ∧ x = y := by
  intro a
  induction a with
  | nil =>
    intro b x y _ hb h
    cases b with
    | nil => simpa using h
    | cons c bs =>
      simp at h
      obtain ⟨hc, -⟩ := h
      exact absurd (hc ▸ List.mem_cons_self c bs) hb
  | cons c as ih =>
    intro b x y ha hb h
    cases b with
    | nil =>
      simp at h
      obtain ⟨hc, -⟩ := h
      exact absurd (hc ▸ List.mem_cons_self c as) ha
    | cons d bs =>
      simp only [List.cons_append, List.cons.injEq] at h
      obtain ⟨hcd, h'⟩ := h
      have := ih bs x y (fun hm => ha (List.mem_cons_of_mem c hm))
        (fun hm => hb (List.mem_cons_of_mem d hm)) h'
      exact ⟨by rw [hcd, this.1], this.2⟩

/-- `joinData` is injective on lists of non-empty, separator-free
components. -/
theorem joinData_inj :
    ∀ l₁ l₂ : List (List Char),
      (∀ c ∈ l₁, c ≠ [] ∧ '/' ∉ c) → (∀ c ∈ l₂, c ≠ [] ∧ '/' ∉ c) →
      joinData l₁ = joinData l₂ → l₁ = l₂ := by
  intro l₁
  induction l₁ with
  | nil =>
    intro l₂ _ h₂ h
    cases l₂ with
    | nil => rfl
    | cons b r₂ =>
      exfalso
      cases r₂ with
      | nil =>
        simp only [joinData] at h
        exact (h₂ b (List.mem_cons_self b [])).1 h.symm
      | cons b' r₂' =>
        simp only [joinData] at h
        exact (h₂ b (List.mem_cons_self b _)).1 (List.append_eq_nil.mp h.symm).1
  | cons a r₁ ih =>
    intro l₂ h₁ h₂ h
    cases l₂ with
    | nil =>
      exfalso
      cases r₁ with
      | nil =>
        simp only [joinData] at h
        exact (h₁ a (List.mem_cons_self a [])).1 h
      | cons a' r₁' =>
        simp only [joinData] at h
        exact (h₁ a (List.mem_cons_self a _)).1 (List.append_eq_nil.mp h).1
    | cons b r₂ =>
      cases r₁ with
      | nil =>
        cases r₂ with
        | nil =>
          simp only [joinData] at h
          rw [h]
        | cons b' r₂' =>
          exfalso
          simp only [joinData] at h
          apply (h₁ a (List.mem_cons_self a _)).2
          rw [h]
          exact List.mem_append_right b (List.mem_cons_self '/' _)
      | cons a' r₁' =>
        cases r₂ with
        | nil =>
          exfalso
          simp only [joinData] at h
          apply (h₂ b (List.mem_cons_self b _)).2
          rw [← h]
          exact List.mem_append_right a (List.mem_cons_self '/' _)
        | cons b' r₂' =>
          simp only [joinData] at h
          have hs := append_sep_inj a b _ _
            (h₁ a (List.mem_cons_self a _)).2
            (h₂ b (List.mem_cons_self b _)).2 h
          have hr := ih (b' :: r₂')
            (fun c hc => h₁ c (List.mem_cons_of_mem a hc))
            (fun c hc => h₂ c (List.mem_cons_of_mem b hc)) hs.2
          rw [hs.1, hr]

/-- Mapping the backslash substitution over separator-free characters is
the identity. -/
theorem mapSep_eq_self {cs : List Char} (h : ∀ x ∈ cs, ¬x = '\\') :
    cs.map (fun c => if c = '\\' then '/' else c) = cs := by
  induction cs with
  | nil => rfl
  | cons a t ih =>
    simp only [List.map_cons]
    rw [if_neg (h a (List.mem_cons_self a t)),
      ih fun x hx => h x (List.mem_cons_of_mem a hx)]

/-- The characters of `joinComps` are the characters of the components
joined with `/`. -/
theorem joinComps_data (l : List String) :
    (joinComps l).data = joinData (l.map String.data) := by
  induction l with
  | nil => rfl
  | cons c rest ih =>
    cases rest with
    | nil => rfl
    | cons c' rest' =>
      show ((c ++ "/") ++ joinComps (c' :: rest')).data = _
      rw [String.data_append, String.data_append, ih]
      simp [joinData, List.append_assoc]

/-- A character of a joined path is the separator or a character of a
component. -/
theorem mem_joinData : ∀ (ls : List (List Char)) (x : Char),
    x ∈ joinData ls → x = '/' ∨ ∃ c ∈ ls, x ∈ c := by
  intro ls
  induction ls with
  | nil =>
    intro x hx
    simp [joinData] at hx
  | cons a rest ih =>
    intro x hx
    cases rest with
    | nil =>
      simp only [joinData] at hx
      exact Or.inr ⟨a, List.mem_cons_self a [], hx⟩
    | cons a' rest' =>
      simp only [joinData] at hx
      rcases List.mem_append.mp hx with h | h
      · exact Or.inr ⟨a, List.mem_cons_self a _, h⟩
      · rcases List.mem_cons.mp h with h | h
        · exact Or.inl h
        · rcases ih x h with h | ⟨c, hc, hxc⟩
          · exact Or.inl h
          · exact Or.inr ⟨c, List.mem_cons_of_mem a hc, hxc⟩

/-- On well-formed components the backslash normalization is the
identity: `relString` is char-level `joinData`. -/
theorem relString_data (l : List String) (h : l.all wfName = true) :
    (relString l).data = joinData (l.map String.data) := by
  have hmk : (relString l).data =
      (joinComps l).data.map (fun c => if c = '\\' then '/' else c) := rfl
  rw [hmk, joinComps_data]
  apply mapSep_eq_self
  intro x hx
  rcases mem_joinData _ x hx with h1 | ⟨c, hc, hxc⟩
  · subst h1; decide
  · rw [List.mem_map] at hc
    obtain ⟨s, hs, rfl⟩ := hc
    rw [List.all_eq_true] at h
    have hws := h s hs
    simp only [wfName, Bool.and_eq_true, List.all_eq_true] at hws
    have h2 := hws.2 x hxc
    simp only [Bool.and_eq_true, Bool.not_eq_true', beq_eq_false_iff_ne,
      ne_eq] at h2
    exact h2.2

/-- `relString` is injective on well-formed component paths. -/
theorem relString_inj {l₁ l₂ : List String} (h₁ : l₁.all wfName = true)
    (h₂ : l₂.all wfName = true) (h : relString l₁ = relString l₂) :
    l₁ = l₂ := by
  have hd : joinData (l₁.map String.data) = joinData (l₂.map String.data) := by
    rw [← relString_data l₁ h₁, ← relString_data l₂ h₂, h]
  have hwf : ∀ (l : List String), l.all wfName = true →
      ∀ c ∈ l.map String.data, c ≠ [] ∧ '/' ∉ c := by
    intro l hl c hc
    rw [List.mem_map] at hc
    obtain ⟨s, hs, rfl⟩ := hc
    rw [List.all_eq_true] at hl
    have hws := hl s hs
    simp only [wfName, Bool.and_eq_true, Bool.not_eq_true',
      List.all_eq_true] at hws
    constructor
    · intro hnil
      rw [hnil] at hws
      simp at hws
    · intro hmem
      have h' := hws.2 '/' hmem
      simp at h'
  have hj := joinData_inj _ _ (hwf l₁ h₁) (hwf l₂ h₂) hd
  have hinj : Function.Injective String.data := by
    intro s t hst
    cases s
    cases t
    exact congrArg String.mk hst
  exact List.map_injective_iff.mpr hinj hj

/-- Every record's path is the normalized relative path of the walked
file it was produced from. -/
theorem processEntry_path {pr : List String × Option String}
    {ign inc : List String} {dry : Bool} {fc : FileContent}
    (h : processEntry pr ign inc dry = some fc) :
    fc.path = relString pr.1 := by
  simp only [processEntry] at h
  split_ifs at h
  · injection h with h
    subst h
    rfl
  · cases hr : pr.2 with
    | some c =>
      rw [hr] at h
      injection h with h
      subst h
      rfl
    | none =>
      rw [hr] at h
      injection h with h
      subst h
      rfl

/-- C2: when the output-artifact path lies inside the root, the entry at
that path is invisible everywhere: the walker drops it before any
processing (no kept entry has its component path), no produced
`FileRecord` carries its path string, and the rendered tree is unchanged
if every listing entry at that path is deleted — so it is never rendered
and its contents are never read. -/
theorem output_path_excluded_everywhere (root : Option (List FSEntry))
    (out : List String) (ign inc : List String) (dry : Bool)
    (hroot : wfRoot root = true) (hout : out.all wfName = true) :
    (∀ pr ∈ filteredEntries root (some out), pr.1 ≠ out) ∧
    (∀ fc ∈ collectRecords (filteredEntries root (some out)) ign inc dry,
      fc.path ≠ relString out) ∧
    (∀ es : List FSEntry, ∀ rel : List String, ∀ pre : String,
      generate_tree (some es) rel pre ign inc (some out) =
        generate_tree
          (some (es.filter fun e => !(some (rel ++ [e.name]) == some out)))
          rel pre ign inc (some out)) := by
  refine ⟨?_, ?_, ?_⟩
  · intro pr hpr heq
    rw [filteredEntries, List.mem_filter] at hpr
    rw [heq] at hpr
    simp at hpr
  · intro fc hfc hcontra
    rw [collectRecords, List.mem_filterMap] at hfc
    obtain ⟨pr, hpr, heq⟩ := hfc
    rw [filteredEntries, List.mem_filter] at hpr
    obtain ⟨hw, hne⟩ := hpr
    rw [walkRoot, List.mem_flatMap] at hw
    obtain ⟨e, he, hpe⟩ := hw
    have hwe : wfEntry e = true := by
      rw [wfRoot, List.all_eq_true] at hroot
      exact hroot e he
    have hwfp : pr.1.all wfName = true :=
      walkEntry_wf [] e hwe rfl pr hpe
    rw [processEntry_path heq] at hcontra
    have : pr.1 = out := relString_inj hwfp hout hcontra
    rw [this] at hne
    simp at hne
  · intro es rel pre
    have hsort : sortEntries es rel (some out) =
        sortEntries
          (es.filter fun e => !(some (rel ++ [e.name]) == some out))
          rel (some out) := by
      unfold sortEntries
      rw [List.filter_filter]
      congr 1
      apply List.filter_congr
      intro e _
      exact (Bool.and_self _).symm
    simp only [generate_tree]
    rw [hsort]

/-- C2 (witness): with a two-file root containing the output artifact
itself, no record carries the output path. -/
theorem output_path_excluded_everywhere_witness :
    wfRoot (some [FSEntry.file "out.txt" (some "O"),
      FSEntry.file "keep.txt" (some "K")]) = true ∧
    (["out.txt"] : List String).all wfName = true ∧
    (∀ fc ∈ collectRecords
        (filteredEntries
          (some [FSEntry.file "out.txt" (some "O"),
            FSEntry.file "keep.txt" (some "K")])
          (some ["out.txt"])) [] [] false,
      fc.path ≠ relString ["out.txt"]) := by
  have h1 : wfRoot (some [FSEntry.file "out.txt" (some "O"),
      FSEntry.file "keep.txt" (some "K")]) = true := by
    simp only [wfRoot, Option.getD, List.all_cons, List.all_nil, wfEntry]
    decide
  have h2 : (["out.txt"] : List String).all wfName = true := by decide
  exact ⟨h1, h2,
    (output_path_excluded_everywhere _ ["out.txt"] [] [] false h1 h2).2.1⟩

/-- A `flatMap` whose body yields one element per item turns `replicate`
into `replicate`. -/
theorem flatMap_replicate_singleton {α β : Type} (n : Nat) (x : α)
    (f : α → List β) (y : β) (h : f x = [y]) :
    (List.replicate n x).flatMap f = List.replicate n y := by
  induction n with
  | zero => rfl
  | succ n ih => simp [List.replicate_succ, h, ih]

/-- A `filterMap` that keeps every item turns `replicate` into
`replicate`. -/
theorem filterMap_replicate_some {α β : Type} (n : Nat) (x : α)
    (f : α → Option β) (y : β) (h : f x = some y) :
    (List.replicate n x).filterMap f = List.replicate n y := by
  induction n with
  | zero => rfl
  | succ n ih => simp [List.replicate_succ, List.filterMap_cons, h, ih]

/-- With the output path outside the root, the walker filter keeps every
file. -/
theorem filteredEntries_none (root : Option (List FSEntry)) :
    filteredEntries root none = walkRoot root := by
  rw [filteredEntries]
  apply List.filter_eq_self.mpr
  intro pr _
  rfl

/-- C5 (counterexample): `processed_count` is `file_contents.len() as
u32`, a 32-bit truncation — on a snapshot with `2 ^ 32` files that all
produce records, the record list has length `2 ^ 32` but the count wraps
to `0`, so the count does not equal the number of records produced. -/
theorem processed_count_truncates :
    process_files
        (some (List.replicate (2 ^ 32) (FSEntry.file "a" (some ""))))
        [] [] none false =
      .ok (List.replicate (2 ^ 32) (FileContent.mk (relString ["a"]) "" none),
        0) ∧
    (List.replicate (2 ^ 32)
      (FileContent.mk (relString ["a"]) "" none)).length = 2 ^ 32 ∧
    (0 : Nat) ≠ 2 ^ 32 := by
  refine ⟨?_, List.length_replicate _ _, by decide⟩
  have h1 : walkRoot (some (List.replicate (2 ^ 32) (FSEntry.file "a" (some "")))) =
      List.replicate (2 ^ 32) ((["a"], some "")) := by
    rw [walkRoot]
    exact flatMap_replicate_singleton _ _ _ _ (by simp [walkEntry])
  have h2 : collectRecords
      (List.replicate (2 ^ 32) ((["a"], (some "" : Option String)))) [] [] false =
      List.replicate (2 ^ 32) (FileContent.mk (relString ["a"]) "" none) := by
    rw [collectRecords]
    exact filterMap_replicate_some _ _ _ _ (by simp [processEntry, should_ignore])
  rw [process_files, filteredEntries_none, h1, h2, List.length_replicate,
    Nat.mod_self]

/-- C5 (amended): every file that passes both filters in normal mode
yields a record even when reading fails — a failed read contributes a
record with empty content and the fixed diagnostic string, a successful
read its content — and the processed count equals the number of records
produced reduced modulo `2 ^ 32` (it equals the number exactly whenever
fewer than `2 ^ 32` records are produced). -/
theorem records_and_count_amended (root : Option (List FSEntry))
    (ign inc : List String) (outRel : Option (List String)) :
    (∀ pr ∈ filteredEntries root outRel,
      should_ignore (relString pr.1) ign = false →
      (!inc.isEmpty && !matches_any (relString pr.1) inc) = false →
      (pr.2 = none →
        FileContent.mk (relString pr.1) ""
          (some "Could not be read as UTF-8 text. Might be binary or encoding issue.") ∈
          collectRecords (filteredEntries root outRel) ign inc false) ∧
      (∀ c, pr.2 = some c →
        FileContent.mk (relString pr.1) c none ∈
          collectRecords (filteredEntries root outRel) ign inc false)) ∧
    (∀ records count,
      process_files root ign inc outRel false = .ok (records, count) →
      count = records.length % 2 ^ 32 ∧
      (records.length < 2 ^ 32 → count = records.length)) := by
  refine ⟨?_, ?_⟩
  · intro pr hpr h1 h2
    constructor
    · intro hr
      rw [collectRecords, List.mem_filterMap]
      exact ⟨pr, hpr, by simp [processEntry, h1, h2, hr]⟩
    · intro c hr
      rw [collectRecords, List.mem_filterMap]
      exact ⟨pr, hpr, by simp [processEntry, h1, h2, hr]⟩
  · intro records count h
    simp only [process_files, Except.ok.injEq, Prod.mk.injEq] at h
    obtain ⟨hr, hc⟩ := h
    subst hr
    refine ⟨hc.symm, fun hlt => ?_⟩
    rw [← hc]
    exact Nat.mod_eq_of_lt hlt

/-- C5 (witness): a concrete unreadable file still yields its error
record. -/
theorem records_and_count_amended_witness :
    ((["bin"], (none : Option String)) ∈
      filteredEntries (some [FSEntry.file "bin" none]) none) ∧
    should_ignore (relString ["bin"]) [] = false ∧
    (!([] : List String).isEmpty && !matches_any (relString ["bin"]) []) = false ∧
    FileContent.mk (relString ["bin"]) ""
      (some "Could not be read as UTF-8 text. Might be binary or encoding issue.") ∈
      collectRecords (filteredEntries (some [FSEntry.file "bin" none]) none)
        [] [] false := by
  have hmem : ((["bin"], (none : Option String)) ∈
      filteredEntries (some [FSEntry.file "bin" none]) none) := by
    simp [filteredEntries, walkRoot, walkEntry]
  exact ⟨hmem, rfl, rfl,
    ((records_and_count_amended (some [FSEntry.file "bin" none]) [] [] none).1
      _ hmem rfl rfl).1 rfl⟩

/-- C10 (witness): a directory whose raw listing ends with a socket-like
entry renders its only visible file with the branch connector and no
corner appears. -/
theorem other_entries_silent_but_counted_witness :
    should_ignore (relString ([] ++ ["a"])) [] = false ∧
    (!([] : List String).isEmpty && !matches_any (relString ([] ++ ["a"])) []) = false ∧
    renderList [FSEntry.file "a" (some "1"), FSEntry.other "zz"] [] "" [] [] none =
      "" ++ "├── " ++ "a" ++ "\n" :=
  ⟨by decide, by decide,
    other_entries_silent_but_counted.2 "a" (some "1") "zz" [] "" [] [] none
      (by decide) (by decide)⟩

end Lingest
